import Mathlib

/-!
Shallow embedding of the `graph_v4` repository (Rust sources
`src/graph_base.rs` and `src/adj_list_graph.rs`).

The repository stores a graph as three collections: a node table
(`HashMap<NodeInd, N>`), an edge table (`HashMap<EdgeInd, Edge<E>>`) and a
vector of per-node adjacency lists (`Vec<Vec<EdgeInd>>`), plus two monotone
counters `curr_node` and `curr_edge` that hand out handles.  Hash maps are
embedded as association lists (`List (Nat × α)`) with `HashMap` semantics:
`insert` replaces any existing binding of the key, `remove` deletes it, and
lookup returns the binding if present.  `Vec` indexing, which panics in Rust
when the index is out of bounds, is embedded as an explicit bounds check;
`Option::unwrap`, which panics on `None`, likewise.  A panicking operation is
embedded as returning `Except.error` together with the state the structure
had reached when the panic fired (Rust leaves the structure in exactly that
state when the panic unwinds), so that atomicity of failing operations can be
stated and checked.

The directedness marker (`PhantomData<Ty>` with `Ty : GraphType` in the
source) is embedded as a `Bool` field fixed at construction time, and
`is_directed` reads it, mirroring `Ty::is_directed()`.

The source leaves `edges_from`, `edges_to`, `edges_at` and `edge_endpoints`
as unimplemented `todo!()` stubs; those four operations are modelled from the
specification's words and are marked as such in their doc comments.  Every
other operation is translated directly from the Rust bodies, including their
defects (which several theorems below exhibit).
-/

namespace GraphV4

/-- Node handle, `pub type NodeInd = usize` in `graph_base.rs`. -/
abbrev NodeInd := Nat

/-- Edge handle, `pub type EdgeInd = usize` in `graph_base.rs`. -/
abbrev EdgeInd := Nat

/-- The kind of abort an operation can hit in the Rust source:
`notFound` embeds an `Option::unwrap` panic on a missing table entry
(the spec's NotFound), `outOfBounds` embeds a `Vec` index panic. -/
inductive GraphErr where
  | notFound
  | outOfBounds
deriving Repr, DecidableEq

/-- The edge record `Edge<E> { start, end, index, data }` used by
`adj_list_graph.rs` (declared in `graph_base` there; the field `end` is a
Lean keyword, so it is called `endN` here). -/
structure Edge (E : Type) where
  start : NodeInd
  endN : NodeInd
  index : EdgeInd
  data : E
deriving Repr, DecidableEq

/-- Association-list reading of `HashMap::get`: the value bound to `k`. -/
def lookupKey (m : List (Nat × α)) (k : Nat) : Option α :=
  match m with
  | [] => none
  | p :: t => if p.1 = k then some p.2 else lookupKey t k

/-- Association-list reading of `HashMap::remove`: delete the binding of `k`. -/
def eraseKey (m : List (Nat × α)) (k : Nat) : List (Nat × α) :=
  m.filter (fun p => p.1 != k)

/-- Association-list reading of `HashMap::insert`: bind `k` to `v`,
replacing any previous binding. -/
def insertKey (m : List (Nat × α)) (k : Nat) (v : α) : List (Nat × α) :=
  (k, v) :: eraseKey m k

/-- The adjacency-list graph `ALGraph<N, E, Ty>` of `adj_list_graph.rs`:
node table, edge table, adjacency lists, the two handle counters, and the
directedness tag (the `PhantomData<Ty>` type tag, as a `Bool`). -/
structure ALGraph (N E : Type) where
  nodes : List (NodeInd × N)
  edges : List (EdgeInd × Edge E)
  adj : List (List EdgeInd)
  curr_node : NodeInd
  curr_edge : EdgeInd
  directed : Bool
deriving Repr, DecidableEq

/-- A freshly constructed graph: all tables empty, counters zero. -/
def emptyGraph (directed : Bool) : ALGraph N E :=
  ⟨[], [], [], 0, 0, directed⟩

/-- `GraphBase::is_directed`, which returns `Ty::is_directed()`. -/
def is_directed (g : ALGraph N E) : Bool :=
  g.directed

/-- `ALGraph::node`: `self.nodes.get(n).unwrap()`; `none` embeds the panic
on a handle that is not a live node. -/
def node (g : ALGraph N E) (n : NodeInd) : Option N :=
  lookupKey g.nodes n

/-- `ALGraph::edge`: `self.edges.get(e).unwrap()`; `none` embeds the panic
on a handle that is not a live edge. -/
def edge (g : ALGraph N E) (e : EdgeInd) : Option (Edge E) :=
  lookupKey g.edges e

/-- `ALGraph::add_node`: inserts the payload at key `curr_node`, increments
`curr_node`, and then returns `self.curr_node` — i.e. the value of the
counter after the increment, exactly as the Rust body does. -/
def add_node (g : ALGraph N E) (data : N) : NodeInd × ALGraph N E :=
  let g1 : ALGraph N E :=
    { g with
      nodes := insertKey g.nodes g.curr_node data
      curr_node := g.curr_node + 1 }
  (g1.curr_node, g1)

/-- `ALGraph::add_edge`: builds the record, inserts it into `edges` first,
then pushes its index onto `adj[start]` (a bounds-checked `Vec` index that
panics when out of range — note the edge-table insert has already happened
at that point), pushes onto `adj[end]` as well when the graph is
undirected, then increments `curr_edge` and returns the index. -/
def add_edge (g : ALGraph N E) (start endN : NodeInd) (data : E) :
    Except GraphErr EdgeInd × ALGraph N E :=
  let ed : Edge E := ⟨start, endN, g.curr_edge, data⟩
  let g1 : ALGraph N E := { g with edges := insertKey g.edges g.curr_edge ed }
  if start < g1.adj.length then
    let g2 : ALGraph N E :=
      { g1 with adj := g1.adj.set start (g1.adj.getD start [] ++ [ed.index]) }
    if is_directed g2 then
      (.ok ed.index, { g2 with curr_edge := g2.curr_edge + 1 })
    else if endN < g2.adj.length then
      let g3 : ALGraph N E :=
        { g2 with adj := g2.adj.set endN (g2.adj.getD endN [] ++ [ed.index]) }
      (.ok ed.index, { g3 with curr_edge := g3.curr_edge + 1 })
    else (.error .outOfBounds, g2)
  else (.error .outOfBounds, g1)

/-- Rust's `v.remove(v.iter().position(|&i| i == x).unwrap())` applied to a
list: delete the element at the position of the first occurrence of `x`;
`none` embeds the `unwrap` panic when `x` does not occur. -/
def removeFirst (l : List EdgeInd) (x : EdgeInd) : Option (List EdgeInd) :=
  match l with
  | [] => none
  | a :: t => if a = x then some t else (removeFirst t x).map (fun r => a :: r)

/-- `ALGraph::remove_edge`: `self.edges.remove(e).unwrap()` (the table is
untouched when the key is absent and the `unwrap` panics), then erase the
first occurrence of the edge's index from `adj[edge.start]`, and, when the
graph is undirected, also from `adj[edge.end]`. -/
def remove_edge (g : ALGraph N E) (e : EdgeInd) :
    Except GraphErr (Edge E) × ALGraph N E :=
  match lookupKey g.edges e with
  | none => (.error .notFound, g)
  | some ed =>
    let g1 : ALGraph N E := { g with edges := eraseKey g.edges e }
    if ed.start < g1.adj.length then
      match removeFirst (g1.adj.getD ed.start []) ed.index with
      | none => (.error .notFound, g1)
      | some l1 =>
        let g2 : ALGraph N E := { g1 with adj := g1.adj.set ed.start l1 }
        if is_directed g2 then (.ok ed, g2)
        else if ed.endN < g2.adj.length then
          match removeFirst (g2.adj.getD ed.endN []) ed.index with
          | none => (.error .notFound, g2)
          | some l2 => (.ok ed, { g2 with adj := g2.adj.set ed.endN l2 })
        else (.error .outOfBounds, g2)
      else (.error .outOfBounds, g1)

/-- `ALGraph::nodes`: the keys of the node table, materialised eagerly. -/
def nodesList (g : ALGraph N E) : List NodeInd :=
  g.nodes.map Prod.fst

/-- `ALGraph::edges`: the keys of the edge table, materialised eagerly. -/
def edgesList (g : ALGraph N E) : List EdgeInd :=
  g.edges.map Prod.fst

/-- Modelled from the spec: `ALGraph::edges_from` is an unimplemented
`todo!()` stub in the source.  Spec §4.2: fails with NotFound if `n` is not
live; directed graphs: the edges whose `start == n`; undirected graphs: all
of `adj[n]`. -/
def edges_from (g : ALGraph N E) (n : NodeInd) : Except GraphErr (List EdgeInd) :=
  if (node g n).isSome then
    if is_directed g then
      .ok ((g.edges.filter (fun p => p.2.start == n)).map Prod.fst)
    else
      .ok (g.adj.getD n [])
  else .error .notFound

/-- Modelled from the spec: `ALGraph::edges_to` is an unimplemented
`todo!()` stub in the source.  Spec §4.2: fails with NotFound if `n` is not
live; directed graphs: the edges whose `end == n`, computed by scanning the
edge table; undirected graphs: the same result as `edges_from`. -/
def edges_to (g : ALGraph N E) (n : NodeInd) : Except GraphErr (List EdgeInd) :=
  if (node g n).isSome then
    if is_directed g then
      .ok ((g.edges.filter (fun p => p.2.endN == n)).map Prod.fst)
    else
      .ok (g.adj.getD n [])
  else .error .notFound

/-- Modelled from the spec: `ALGraph::edges_at` is an unimplemented
`todo!()` stub in the source.  Spec §4.2: the set union of `edges_from` and
`edges_to`, an edge counted once even when it lies in both; for undirected
graphs this equals `edges_from`. -/
def edges_at (g : ALGraph N E) (n : NodeInd) : Except GraphErr (List EdgeInd) :=
  match edges_from g n, edges_to g n with
  | .ok f, .ok t => .ok (f ++ t.filter (fun e => !(f.contains e)))
  | _, _ => .error .notFound

/-- Modelled from the spec: `ALGraph::edge_endpoints` is an unimplemented
`todo!()` stub in the source.  Spec §4.2: fails with NotFound if `e` is not
live; returns `(start, end)` exactly as stored. -/
def edge_endpoints (g : ALGraph N E) (e : EdgeInd) :
    Except GraphErr (NodeInd × NodeInd) :=
  match edge g e with
  | some ed => .ok (ed.start, ed.endN)
  | none => .error .notFound

/-- `GraphBase::edge_start` (derived): `self.edge_endpoints(e).0`. -/
def edge_start (g : ALGraph N E) (e : EdgeInd) : Except GraphErr NodeInd :=
  (edge_endpoints g e).map Prod.fst

/-- `GraphBase::edge_end` (derived): `self.edge_endpoints(e).1`. -/
def edge_end (g : ALGraph N E) (e : EdgeInd) : Except GraphErr NodeInd :=
  (edge_endpoints g e).map Prod.snd

/-- `GraphBase::neighbors` (derived), translated from `graph_base.rs` lines
101–111: on a directed graph it maps `edge_start` — not `edge_end` — over
`edges_from(n)`; on an undirected graph it maps each edge of `edges_at(n)`
to whichever endpoint differs from `n` (yielding `n` itself for a
self-loop). -/
def neighbors (g : ALGraph N E) (n : NodeInd) : Except GraphErr (List NodeInd) :=
  if is_directed g then
    match edges_from g n with
    | .ok es => es.mapM (fun e => edge_start g e)
    | .error err => .error err
  else
    match edges_at g n with
    | .ok es =>
      es.mapM (fun e =>
        match edge_endpoints g e with
        | .ok se => .ok (if se.1 = n then se.2 else se.1)
        | .error err => .error err)
    | .error err => .error err

/-- Membership of an edge handle in the result of a successful adjacency
query: the query returned `ok` with a list containing the handle. -/
def okMem (e : EdgeInd) (r : Except GraphErr (List EdgeInd)) : Prop :=
  ∃ l, r = .ok l ∧ e ∈ l

/-- How often the handle of the edge record `ed` occurs in the adjacency
list of node `j` under the registration discipline of `add_edge` (spec §3):
once at `start` for a directed graph; once at `start` plus once at `end`
for an undirected graph, which makes two occurrences at `start` for an
undirected self-loop. -/
def adjOcc (directed : Bool) (ed : Edge E) (j : NodeInd) : Nat :=
  if directed then (if j = ed.start then 1 else 0)
  else (if j = ed.start then 1 else 0) + (if j = ed.endN then 1 else 0)

/-- The internal consistency invariant of the adjacency-list representation:
edge-table keys are distinct and below `curr_edge`; each stored record
carries its own key as `index`; endpoints used by the adjacency lists are in
bounds; every handle in an adjacency list is an edge-table key; and each
edge's handle occurs in each adjacency list exactly `adjOcc` often. -/
def Invariant (g : ALGraph N E) : Prop :=
  (g.edges.map Prod.fst).Nodup
  ∧ (∀ p ∈ g.edges, p.1 < g.curr_edge)
  ∧ (∀ p ∈ g.edges, p.2.index = p.1)
  ∧ (∀ p ∈ g.edges, p.2.start < g.adj.length
      ∧ (g.directed = false → p.2.endN < g.adj.length))
  ∧ (∀ l ∈ g.adj, ∀ i ∈ l, (lookupKey g.edges i).isSome = true)
  ∧ (∀ p ∈ g.edges, ∀ j, j < g.adj.length →
      (g.adj.getD j []).count p.1 = adjOcc g.directed p.2 j)

/-- The adjacency-list consistency property of claim C8 (spec §3): every
handle in any adjacency list is an edge-table key; in a directed graph an
edge appears in the adjacency list of its start node and in no other; in an
undirected graph it appears in the lists of both endpoints. -/
def ConsistencyProp (g : ALGraph N E) : Prop :=
  (∀ l ∈ g.adj, ∀ i ∈ l, i ∈ edgesList g)
  ∧ (g.directed = true → ∀ p ∈ g.edges,
      p.1 ∈ g.adj.getD p.2.start []
      ∧ ∀ j, j < g.adj.length → j ≠ p.2.start → p.1 ∉ g.adj.getD j [])
  ∧ (g.directed = false → ∀ p ∈ g.edges,
      p.1 ∈ g.adj.getD p.2.start [] ∧ p.1 ∈ g.adj.getD p.2.endN [])

/-- Stored-index self-consistency of claim C10: every edge-table entry's
record carries the key it is filed under. -/
def StoredIndexInv (g : ALGraph N E) : Prop :=
  ∀ p ∈ g.edges, p.2.index = p.1

/-- The removal round-trip property of claim C4 for the pair
`remove_edge (add_edge u v d)`: the add returns the fresh handle
`curr_edge`; removing that handle returns the record
`{start := u, end := v, data := d}` (with its index); and afterwards the
handle is absent from `edges()` and from every adjacency query
(`edges_from`, `edges_to`, `edges_at`) for `u` and for `v`. -/
def RoundtripProp (g : ALGraph N E) (u v : NodeInd) (d : E) : Prop :=
  (add_edge g u v d).1 = .ok g.curr_edge
  ∧ (remove_edge (add_edge g u v d).2 g.curr_edge).1
      = .ok ⟨u, v, g.curr_edge, d⟩
  ∧ g.curr_edge ∉ edgesList (remove_edge (add_edge g u v d).2 g.curr_edge).2
  ∧ ¬ okMem g.curr_edge
      (edges_from (remove_edge (add_edge g u v d).2 g.curr_edge).2 u)
  ∧ ¬ okMem g.curr_edge
      (edges_to (remove_edge (add_edge g u v d).2 g.curr_edge).2 u)
  ∧ ¬ okMem g.curr_edge
      (edges_at (remove_edge (add_edge g u v d).2 g.curr_edge).2 u)
  ∧ ¬ okMem g.curr_edge
      (edges_from (remove_edge (add_edge g u v d).2 g.curr_edge).2 v)
  ∧ ¬ okMem g.curr_edge
      (edges_to (remove_edge (add_edge g u v d).2 g.curr_edge).2 v)
  ∧ ¬ okMem g.curr_edge
      (edges_at (remove_edge (add_edge g u v d).2 g.curr_edge).2 v)

/-- The directed end-to-end scenario of spec §8: nodes `A = 0`, `B = 1` and
the single edge `0 → 1` with handle 0.  Built directly as a table state —
the source's `add_node` cannot produce it, see C1. -/
def gScenario : ALGraph Nat Nat :=
  ⟨[(0, 0), (1, 1)], [(0, ⟨0, 1, 0, 26⟩)], [[0], []], 2, 1, true⟩

/-- A well-formed directed graph with two nodes, no edges, and adjacency
lists in place, used to instantiate hypothetical theorems. -/
def gTwo : ALGraph Nat Nat :=
  ⟨[(0, 0), (1, 1)], [], [[], []], 2, 0, true⟩

/-- The undirected counterpart of `gTwo`. -/
def gTwoU : ALGraph Nat Nat :=
  ⟨[(0, 0), (1, 1)], [], [[], []], 2, 0, false⟩

/-- An undirected graph with one node and no edges. -/
def gOneU : ALGraph Nat Nat :=
  ⟨[(0, 10)], [], [[]], 1, 0, false⟩

/-! ### Association-list lemmas -/

@[simp]
theorem lookupKey_nil (k : Nat) : lookupKey ([] : List (Nat × α)) k = none :=
  rfl

@[simp]
theorem lookupKey_cons (p : Nat × α) (t : List (Nat × α)) (k : Nat) :
    lookupKey (p :: t) k = if p.1 = k then some p.2 else lookupKey t k :=
  rfl

@[simp]
theorem eraseKey_nil (k : Nat) : eraseKey ([] : List (Nat × α)) k = [] :=
  rfl

theorem eraseKey_cons (p : Nat × α) (t : List (Nat × α)) (k : Nat) :
    eraseKey (p :: t) k =
      if p.1 = k then eraseKey t k else p :: eraseKey t k := by
  by_cases h : p.1 = k <;> simp [eraseKey, List.filter_cons, h]

theorem lookupKey_eraseKey_self (m : List (Nat × α)) (k : Nat) :
    lookupKey (eraseKey m k) k = none := by
  induction m with
  | nil => rfl
  | cons p t ih =>
    by_cases h : p.1 = k <;> simp [eraseKey_cons, h, ih]

theorem lookupKey_eraseKey_ne (m : List (Nat × α)) (k k' : Nat) (h : k' ≠ k) :
    lookupKey (eraseKey m k) k' = lookupKey m k' := by
  induction m with
  | nil => rfl
  | cons p t ih =>
    by_cases hp : p.1 = k
    · have hp' : ¬p.1 = k' := by omega
      have hk : ¬(k = k') := by omega
      simp [eraseKey_cons, hp, hp', hk, ih]
    · simp [eraseKey_cons, hp, ih]

@[simp]
theorem lookupKey_insertKey_self (m : List (Nat × α)) (k : Nat) (v : α) :
    lookupKey (insertKey m k v) k = some v := by
  simp [insertKey]

theorem lookupKey_insertKey_ne (m : List (Nat × α)) (k k' : Nat) (v : α)
    (h : k' ≠ k) : lookupKey (insertKey m k v) k' = lookupKey m k' := by
  have hk : ¬(k = k') := by omega
  simp [insertKey, hk]
  exact lookupKey_eraseKey_ne m k k' h

theorem mem_eraseKey (m : List (Nat × α)) (k : Nat) (p : Nat × α) :
    p ∈ eraseKey m k ↔ p ∈ m ∧ p.1 ≠ k := by
  simp [eraseKey, List.mem_filter]

theorem mem_insertKey (m : List (Nat × α)) (k : Nat) (v : α) (p : Nat × α) :
    p ∈ insertKey m k v ↔ p = (k, v) ∨ (p ∈ m ∧ p.1 ≠ k) := by
  simp [insertKey, mem_eraseKey]

theorem lookupKey_isSome_iff (m : List (Nat × α)) (k : Nat) :
    (lookupKey m k).isSome = true ↔ k ∈ m.map Prod.fst := by
  induction m with
  | nil => simp
  | cons p t ih =>
    by_cases h : p.1 = k
    · simp [h]
    · have h' : ¬(k = p.1) := by omega
      simp [h, h', ih]

theorem lookupKey_mem (m : List (Nat × α)) (k : Nat) (v : α)
    (h : lookupKey m k = some v) : (k, v) ∈ m := by
  induction m with
  | nil => simp at h
  | cons p t ih =>
    obtain ⟨a, b⟩ := p
    by_cases hp : a = k
    · simp [hp] at h
      simp [hp, h]
    · simp [hp] at h
      exact List.mem_cons_of_mem _ (ih h)

theorem nodup_keys_eraseKey (m : List (Nat × α)) (k : Nat)
    (h : (m.map Prod.fst).Nodup) : ((eraseKey m k).map Prod.fst).Nodup := by
  have hsub : List.Sublist (eraseKey m k) m := List.filter_sublist m
  exact (hsub.map Prod.fst).nodup h

theorem not_mem_keys_eraseKey (m : List (Nat × α)) (k : Nat) :
    k ∉ (eraseKey m k).map Prod.fst := by
  intro h
  rcases List.mem_map.1 h with ⟨p, hp, hpk⟩
  rcases (mem_eraseKey m k p).1 hp with ⟨_, hne⟩
  exact hne hpk

theorem nodup_keys_insertKey (m : List (Nat × α)) (k : Nat) (v : α)
    (h : (m.map Prod.fst).Nodup) :
    ((insertKey m k v).map Prod.fst).Nodup := by
  simp only [insertKey, List.map_cons, List.nodup_cons]
  exact ⟨not_mem_keys_eraseKey m k, nodup_keys_eraseKey m k h⟩

/-! ### `removeFirst` and positional list lemmas -/

theorem removeFirst_eq (l : List EdgeInd) (x : EdgeInd) :
    removeFirst l x = if x ∈ l then some (l.erase x) else none := by
  induction l with
  | nil => rfl
  | cons a t ih =>
    by_cases hax : a = x
    · subst hax
      simp [removeFirst, List.erase_cons_head]
    · have hbeq : (a == x) = false := by simpa using hax
      by_cases hxt : x ∈ t
      · simp [removeFirst, hax, ih, hxt, List.erase_cons, hbeq]
      · have hxa : ¬(x = a) := fun hh => hax hh.symm
        simp [removeFirst, hax, ih, hxt, hxa]

theorem getD_set_self (l : List α) (i : Nat) (x d : α) (h : i < l.length) :
    (l.set i x).getD i d = x := by
  induction l generalizing i with
  | nil => simp at h
  | cons a t ih =>
    cases i with
    | zero => rfl
    | succ n => simpa using ih n (by simpa using h)

theorem getD_set_ne (l : List α) (i j : Nat) (x d : α) (h : j ≠ i) :
    (l.set i x).getD j d = l.getD j d := by
  induction l generalizing i j with
  | nil => rfl
  | cons a t ih =>
    cases i with
    | zero =>
      cases j with
      | zero => omega
      | succ n => rfl
    | succ m =>
      cases j with
      | zero => rfl
      | succ n => simpa using ih m n (by omega)

theorem getD_eq_get (l : List α) (i : Nat) (d : α) (h : i < l.length) :
    l.getD i d = l[i] := by
  rw [List.getD_eq_getElem?_getD, List.getElem?_eq_getElem h]
  rfl

theorem count_getD_set (adj : List (List Nat)) (i : Nat) (L : List Nat)
    (x : Nat) (j : Nat) (hi : i < adj.length) :
    ((adj.set i L).getD j []).count x
      = if j = i then L.count x else (adj.getD j []).count x := by
  by_cases h : j = i
  · subst h
    rw [getD_set_self _ _ _ _ hi]
    simp
  · rw [getD_set_ne _ _ _ _ _ h]
    simp [h]

theorem mem_of_mem_getD (l : List α) (j : Nat) (d : α) (x : α)
    (hj : j < l.length) (hx : x = l.getD j d) : x ∈ l := by
  induction l generalizing j with
  | nil => simp at hj
  | cons a t ih =>
    cases j with
    | zero => simp_all
    | succ n =>
      right
      exact ih n (by simpa using hj) (by simpa using hx)

/-! ### Characterisations of the mutating operations -/

theorem add_edge_directed_eq (g : ALGraph N E) (u v : NodeInd) (d : E)
    (hdir : g.directed = true) (hu : u < g.adj.length) :
    add_edge g u v d =
      (.ok g.curr_edge,
        { g with
          edges := insertKey g.edges g.curr_edge ⟨u, v, g.curr_edge, d⟩
          adj := g.adj.set u (g.adj[u] ++ [g.curr_edge])
          curr_edge := g.curr_edge + 1 }) := by
  simp [add_edge, is_directed, hdir, hu]

theorem add_edge_undirected_ne_eq (g : ALGraph N E) (u v : NodeInd) (d : E)
    (hdir : g.directed = false) (hu : u < g.adj.length) (hv : v < g.adj.length)
    (hne : v ≠ u) :
    add_edge g u v d =
      (.ok g.curr_edge,
        { g with
          edges := insertKey g.edges g.curr_edge ⟨u, v, g.curr_edge, d⟩
          adj := (g.adj.set u (g.adj[u] ++ [g.curr_edge])).set v
              (g.adj[v] ++ [g.curr_edge])
          curr_edge := g.curr_edge + 1 }) := by
  simp [add_edge, is_directed, hdir, hu, hv, Ne.symm hne]

theorem add_edge_undirected_self_eq (g : ALGraph N E) (u : NodeInd) (d : E)
    (hdir : g.directed = false) (hu : u < g.adj.length) :
    add_edge g u u d =
      (.ok g.curr_edge,
        { g with
          edges := insertKey g.edges g.curr_edge ⟨u, u, g.curr_edge, d⟩
          adj := g.adj.set u (g.adj[u] ++ [g.curr_edge, g.curr_edge])
          curr_edge := g.curr_edge + 1 }) := by
  simp [add_edge, is_directed, hdir, hu, List.set_set]

theorem remove_edge_directed_eq (g : ALGraph N E) (e : EdgeInd) (ed : Edge E)
    (hdir : g.directed = true) (hlook : lookupKey g.edges e = some ed)
    (hs : ed.start < g.adj.length)
    (hmem : ed.index ∈ g.adj[ed.start]) :
    remove_edge g e =
      (.ok ed,
        { g with
          edges := eraseKey g.edges e
          adj := g.adj.set ed.start (g.adj[ed.start].erase ed.index) }) := by
  simp [remove_edge, hlook, hs, removeFirst_eq, hmem, is_directed, hdir]

theorem remove_edge_undirected_ne_eq (g : ALGraph N E) (e : EdgeInd) (ed : Edge E)
    (hdir : g.directed = false) (hlook : lookupKey g.edges e = some ed)
    (hs : ed.start < g.adj.length) (he : ed.endN < g.adj.length)
    (hne : ed.endN ≠ ed.start)
    (hm1 : ed.index ∈ g.adj[ed.start])
    (hm2 : ed.index ∈ g.adj[ed.endN]) :
    remove_edge g e =
      (.ok ed,
        { g with
          edges := eraseKey g.edges e
          adj := (g.adj.set ed.start (g.adj[ed.start].erase ed.index)).set
              ed.endN (g.adj[ed.endN].erase ed.index) }) := by
  simp [remove_edge, hlook, hs, he, removeFirst_eq, hm1, hm2, is_directed, hdir,
    Ne.symm hne]

theorem remove_edge_undirected_self_eq (g : ALGraph N E) (e : EdgeInd) (ed : Edge E)
    (hdir : g.directed = false) (hlook : lookupKey g.edges e = some ed)
    (hs : ed.start < g.adj.length) (hself : ed.endN = ed.start)
    (hm1 : ed.index ∈ g.adj[ed.start])
    (hm2 : ed.index ∈ g.adj[ed.start].erase ed.index) :
    remove_edge g e =
      (.ok ed,
        { g with
          edges := eraseKey g.edges e
          adj := g.adj.set ed.start
              ((g.adj[ed.start].erase ed.index).erase ed.index) }) := by
  simp [remove_edge, hlook, hs, hself, removeFirst_eq, hm1, hm2, is_directed, hdir,
    List.set_set]

theorem add_edge_frame (g : ALGraph N E) (u v : NodeInd) (d : E) :
    (add_edge g u v d).2.nodes = g.nodes
    ∧ (add_edge g u v d).2.curr_node = g.curr_node
    ∧ (add_edge g u v d).2.directed = g.directed
    ∧ (add_edge g u v d).2.adj.length = g.adj.length := by
  simp only [add_edge]
  split_ifs <;> simp

theorem remove_edge_frame (g : ALGraph N E) (e : EdgeInd) :
    (remove_edge g e).2.nodes = g.nodes
    ∧ (remove_edge g e).2.curr_node = g.curr_node
    ∧ (remove_edge g e).2.curr_edge = g.curr_edge
    ∧ (remove_edge g e).2.directed = g.directed
    ∧ (remove_edge g e).2.adj.length = g.adj.length := by
  simp only [remove_edge]
  repeat' split
  all_goals simp

theorem add_edge_edges_eq (g : ALGraph N E) (u v : NodeInd) (d : E) :
    (add_edge g u v d).2.edges
      = insertKey g.edges g.curr_edge ⟨u, v, g.curr_edge, d⟩ := by
  simp only [add_edge]
  repeat' split
  all_goals rfl

theorem add_edge_ok_ret (g : ALGraph N E) (u v : NodeInd) (d : E)
    (hua : u < g.adj.length) (hva : v < g.adj.length) :
    (add_edge g u v d).1 = .ok g.curr_edge := by
  simp only [add_edge]
  split_ifs <;> simp_all

theorem node_add_edge (g : ALGraph N E) (u v n : NodeInd) (d : E) :
    node (add_edge g u v d).2 n = node g n := by
  simp [node, (add_edge_frame g u v d).1]

theorem node_remove_edge (g : ALGraph N E) (e : EdgeInd) (n : NodeInd) :
    node (remove_edge g e).2 n = node g n := by
  simp [node, (remove_edge_frame g e).1]

theorem edges_from_directed_eq (g : ALGraph N E) (n : NodeInd)
    (hdir : g.directed = true) (hn : (node g n).isSome = true) :
    edges_from g n
      = .ok ((g.edges.filter (fun p => p.2.start == n)).map Prod.fst) := by
  simp [edges_from, hn, is_directed, hdir]

theorem edges_to_directed_eq (g : ALGraph N E) (n : NodeInd)
    (hdir : g.directed = true) (hn : (node g n).isSome = true) :
    edges_to g n
      = .ok ((g.edges.filter (fun p => p.2.endN == n)).map Prod.fst) := by
  simp [edges_to, hn, is_directed, hdir]

theorem edges_from_undirected_eq (g : ALGraph N E) (n : NodeInd)
    (hdir : g.directed = false) (hn : (node g n).isSome = true) :
    edges_from g n = .ok (g.adj.getD n []) := by
  simp [edges_from, hn, is_directed, hdir]

theorem edges_to_undirected_eq (g : ALGraph N E) (n : NodeInd)
    (hdir : g.directed = false) (hn : (node g n).isSome = true) :
    edges_to g n = .ok (g.adj.getD n []) := by
  simp [edges_to, hn, is_directed, hdir]

theorem edges_at_eq (g : ALGraph N E) (n : NodeInd) (f t : List EdgeInd)
    (hf : edges_from g n = .ok f) (ht : edges_to g n = .ok t) :
    edges_at g n = .ok (f ++ t.filter (fun e => !(f.contains e))) := by
  simp [edges_at, hf, ht]

theorem mem_union_iff (x : EdgeInd) (f t : List EdgeInd) :
    x ∈ f ++ t.filter (fun e => !(f.contains e)) ↔ x ∈ f ∨ x ∈ t := by
  by_cases hf : x ∈ f <;> simp [List.mem_append, List.mem_filter, hf]

theorem mem_keys_of_mem_keys_filter (m : List (Nat × α)) (q : Nat × α → Bool)
    (k : Nat) (h : k ∈ (m.filter q).map Prod.fst) : k ∈ m.map Prod.fst := by
  rcases List.mem_map.1 h with ⟨p, hp, hk⟩
  exact List.mem_map.2 ⟨p, (List.mem_filter.1 hp).1, hk⟩

theorem okMem_ok (x : EdgeInd) (L : List EdgeInd) :
    okMem x (Except.ok L : Except GraphErr (List EdgeInd)) ↔ x ∈ L := by
  constructor
  · rintro ⟨l, hl, hm⟩
    injection hl with h
    subst h
    exact hm
  · intro h
    exact ⟨L, rfl, h⟩

/-! ### Claim theorems -/

/-- C1 (code bug): the spec states that after each `add_node(d)` the handles
returned so far are pairwise distinct and that `node(h)` applied to the
handle `h` just returned yields `d`.  The source's `add_node` inserts the
payload at key `curr_node` but returns the counter after incrementing it
(its own doc comment says it returns the new index), so `node` on the
returned handle fails: on an empty graph, `add_node 7` returns handle 1
while the payload sits under key 0. -/
theorem c1_add_node_returns_unmapped_handle :
    (add_node (emptyGraph true : ALGraph Nat Nat) 7).1 = 1
    ∧ node (add_node (emptyGraph true : ALGraph Nat Nat) 7).2 1 = none
    ∧ node (add_node (emptyGraph true : ALGraph Nat Nat) 7).2 0 = some 7 :=
  ⟨rfl, rfl, rfl⟩

/-- C2 (code bug): on a directed graph the claim (and the source's own doc
comment on `neighbors`) requires `neighbors(n)` to yield the far end
`edge_end(e)` of every outgoing edge, so `neighbors 0 = {1}` on the scenario
graph with the single edge `0 → 1`.  The source maps `edge_start` — the node
itself — over `edges_from(n)`, yielding `{0}`. -/
theorem c2_neighbors_computes_edge_start :
    neighbors gScenario 0 = .ok [0]
    ∧ edges_from gScenario 0 = .ok [0]
    ∧ edge_end gScenario 0 = .ok 1 :=
  ⟨rfl, rfl, rfl⟩

/-- C3 (code bug): the claim requires every operation handed a dead handle to
fail with NotFound leaving the graph exactly as it was; for `add_edge` the
spec demands the liveness check happen before any mutation.  The source's
`add_edge` never consults the node table: it inserts the new record into the
edge table first and only then indexes `adj[start]`, which panics.  On the
empty graph, `add_edge 0 1 9` with the dead handle 0 fails with an
out-of-bounds panic, not NotFound, and afterwards the edge table contains
the inserted record — a partial mutation. -/
theorem c3_add_edge_mutates_before_failing :
    (add_edge (emptyGraph true : ALGraph Nat Nat) 0 1 9).1 = .error .outOfBounds
    ∧ edge (add_edge (emptyGraph true : ALGraph Nat Nat) 0 1 9).2 0
        = some ⟨0, 1, 0, 9⟩
    ∧ (add_edge (emptyGraph true : ALGraph Nat Nat) 0 1 9).2 ≠ emptyGraph true :=
  ⟨rfl, rfl, by decide⟩

/-- C9: counter monotonicity.  `add_node` increments `curr_node` by exactly
one and leaves `curr_edge` alone; `add_edge` leaves `curr_node` alone and
increments `curr_edge` by exactly one when it returns (leaving it unchanged
when it panics); `remove_edge` changes neither counter.  No operation ever
decreases or resets a counter, so handles handed out by the counters are
never reused for the lifetime of the graph. -/
theorem c9_counters_monotone (g : ALGraph N E) (dN : N) (u v : NodeInd)
    (dE : E) (e : EdgeInd) :
    ((add_node g dN).2.curr_node = g.curr_node + 1
      ∧ (add_node g dN).2.curr_edge = g.curr_edge)
    ∧ ((add_edge g u v dE).2.curr_node = g.curr_node
      ∧ (add_edge g u v dE).2.curr_edge
          = (if ((add_edge g u v dE).1).isOk then g.curr_edge + 1
             else g.curr_edge))
    ∧ ((remove_edge g e).2.curr_node = g.curr_node
      ∧ (remove_edge g e).2.curr_edge = g.curr_edge) := by
  refine ⟨⟨rfl, rfl⟩, ⟨(add_edge_frame g u v dE).2.1, ?_⟩,
    (remove_edge_frame g e).2.1, (remove_edge_frame g e).2.2.1⟩
  simp only [add_edge]
  split_ifs <;> simp_all [Except.isOk, Except.toBool]

/-- C6: for `add_edge u v d` on live nodes `u`, `v` — with the bounds
hypotheses that make the source's unchecked `adj` indexing succeed (see
C3/C1 for why liveness alone does not) — the call returns the fresh handle
`curr_edge`, `edge_endpoints` on that handle yields `(u, v)` exactly as
stored, and `edge` on it carries the payload `d`. -/
theorem c6_add_edge_endpoints_and_data (g : ALGraph N E) (u v : NodeInd)
    (d : E) (hu : (node g u).isSome = true) (hv : (node g v).isSome = true)
    (hua : u < g.adj.length) (hva : v < g.adj.length) :
    (add_edge g u v d).1 = .ok g.curr_edge
    ∧ edge_endpoints (add_edge g u v d).2 g.curr_edge = .ok (u, v)
    ∧ (edge (add_edge g u v d).2 g.curr_edge).map Edge.data = some d := by
  refine ⟨add_edge_ok_ret g u v d hua hva, ?_, ?_⟩ <;>
    simp [edge_endpoints, edge, add_edge_edges_eq]

/-- Witness for C6 at the concrete graph `gTwo` with `u = 0`, `v = 1`,
payload 5. -/
theorem c6_add_edge_endpoints_and_data_witness :
    ((node gTwo 0).isSome = true ∧ (node gTwo 1).isSome = true
      ∧ 0 < gTwo.adj.length ∧ 1 < gTwo.adj.length)
    ∧ ((add_edge gTwo 0 1 5).1 = .ok gTwo.curr_edge
      ∧ edge_endpoints (add_edge gTwo 0 1 5).2 gTwo.curr_edge = .ok (0, 1)
      ∧ (edge (add_edge gTwo 0 1 5).2 gTwo.curr_edge).map Edge.data = some 5) :=
  ⟨⟨by decide, by decide, by decide, by decide⟩,
    c6_add_edge_endpoints_and_data gTwo 0 1 5 (by decide) (by decide)
      (by decide) (by decide)⟩

/-- C5: on a directed graph, after `add_edge u v d` on live nodes (with the
bounds hypothesis that makes the source's unchecked `adj[start]` indexing
succeed), the returned handle is a member of `edges_from(u)`, `edges_to(v)`,
`edges_at(u)` and `edges_at(v)`, but not of `edges_from(v)` unless
`u = v`. -/
theorem c5_directed_membership (g : ALGraph N E) (u v : NodeInd) (d : E)
    (hdir : g.directed = true)
    (hu : (node g u).isSome = true) (hv : (node g v).isSome = true)
    (hua : u < g.adj.length) :
    (add_edge g u v d).1 = .ok g.curr_edge
    ∧ okMem g.curr_edge (edges_from (add_edge g u v d).2 u)
    ∧ okMem g.curr_edge (edges_to (add_edge g u v d).2 v)
    ∧ okMem g.curr_edge (edges_at (add_edge g u v d).2 u)
    ∧ okMem g.curr_edge (edges_at (add_edge g u v d).2 v)
    ∧ (u ≠ v → ¬ okMem g.curr_edge (edges_from (add_edge g u v d).2 v)) := by
  have hfr := add_edge_frame g u v d
  have hdir2 : (add_edge g u v d).2.directed = true := hfr.2.2.1.trans hdir
  have hu2 : (node (add_edge g u v d).2 u).isSome = true := by
    rw [node_add_edge]; exact hu
  have hv2 : (node (add_edge g u v d).2 v).isSome = true := by
    rw [node_add_edge]; exact hv
  have hedges := add_edge_edges_eq g u v d
  have hins : (g.curr_edge, (⟨u, v, g.curr_edge, d⟩ : Edge E))
      ∈ (add_edge g u v d).2.edges := by
    rw [hedges]; exact (mem_insertKey _ _ _ _).2 (Or.inl rfl)
  have hfrom_u := edges_from_directed_eq (add_edge g u v d).2 u hdir2 hu2
  have hfrom_v := edges_from_directed_eq (add_edge g u v d).2 v hdir2 hv2
  have hto_u := edges_to_directed_eq (add_edge g u v d).2 u hdir2 hu2
  have hto_v := edges_to_directed_eq (add_edge g u v d).2 v hdir2 hv2
  have hmf : g.curr_edge ∈ (((add_edge g u v d).2.edges).filter
      (fun p => p.2.start == u)).map Prod.fst :=
    List.mem_map.2 ⟨_, List.mem_filter.2 ⟨hins, by simp⟩, rfl⟩
  have hmt : g.curr_edge ∈ (((add_edge g u v d).2.edges).filter
      (fun p => p.2.endN == v)).map Prod.fst :=
    List.mem_map.2 ⟨_, List.mem_filter.2 ⟨hins, by simp⟩, rfl⟩
  refine ⟨?_, ?_, ?_, ?_, ?_, ?_⟩
  · rw [add_edge_directed_eq g u v d hdir hua]
  · rw [hfrom_u, okMem_ok]; exact hmf
  · rw [hto_v, okMem_ok]; exact hmt
  · rw [edges_at_eq _ u _ _ hfrom_u hto_u, okMem_ok, mem_union_iff]
    exact Or.inl hmf
  · rw [edges_at_eq _ v _ _ hfrom_v hto_v, okMem_ok, mem_union_iff]
    exact Or.inr hmt
  · intro hne hok
    rw [hfrom_v, okMem_ok] at hok
    rcases List.mem_map.1 hok with ⟨p, hpf, hp1⟩
    rcases List.mem_filter.1 hpf with ⟨hpm, hpc⟩
    rw [hedges] at hpm
    rcases (mem_insertKey _ _ _ _).1 hpm with hpe | ⟨_, hpk⟩
    · subst hpe
      simp at hpc
      exact hne hpc
    · exact hpk hp1

/-- Witness for C5 at `gTwo` with `u = 0`, `v = 1`, payload 5. -/
theorem c5_directed_membership_witness :
    (gTwo.directed = true ∧ (node gTwo 0).isSome = true
      ∧ (node gTwo 1).isSome = true ∧ 0 < gTwo.adj.length)
    ∧ ((add_edge gTwo 0 1 5).1 = .ok gTwo.curr_edge
      ∧ okMem gTwo.curr_edge (edges_from (add_edge gTwo 0 1 5).2 0)
      ∧ okMem gTwo.curr_edge (edges_to (add_edge gTwo 0 1 5).2 1)
      ∧ okMem gTwo.curr_edge (edges_at (add_edge gTwo 0 1 5).2 0)
      ∧ okMem gTwo.curr_edge (edges_at (add_edge gTwo 0 1 5).2 1)
      ∧ ((0 : NodeInd) ≠ 1 →
          ¬ okMem gTwo.curr_edge (edges_from (add_edge gTwo 0 1 5).2 1))) :=
  ⟨⟨by decide, by decide, by decide, by decide⟩,
    c5_directed_membership gTwo 0 1 5 (by decide) (by decide) (by decide)
      (by decide)⟩

/-- C7: undirected self-loop.  On an undirected graph, `add_edge u u d` on a
live, in-bounds node pushes the fresh handle twice onto `adj[u]` (so the
edge counts twice toward the degree of `u`), and a single `remove_edge` of
that handle removes both occurrences.  The freshness hypothesis — the new
handle does not already occur in an adjacency list — holds in every state
whose adjacency entries were issued by `curr_edge`. -/
theorem c7_undirected_self_loop (g : ALGraph N E) (u : NodeInd) (d : E)
    (hdir : g.directed = false) (hu : (node g u).isSome = true)
    (hua : u < g.adj.length)
    (hfresh : ∀ l ∈ g.adj, g.curr_edge ∉ l) :
    (add_edge g u u d).1 = .ok g.curr_edge
    ∧ ((add_edge g u u d).2.adj.getD u []).count g.curr_edge = 2
    ∧ (remove_edge (add_edge g u u d).2 g.curr_edge).1
        = .ok ⟨u, u, g.curr_edge, d⟩
    ∧ ((remove_edge (add_edge g u u d).2 g.curr_edge).2.adj.getD u []).count
        g.curr_edge = 0 := by
  obtain ⟨A, hA⟩ : ∃ A, g.adj[u] = A := ⟨_, rfl⟩
  have hnm : g.curr_edge ∉ A := hA ▸ hfresh _ (List.getElem_mem hua)
  have hcnt0 : A.count g.curr_edge = 0 := List.count_eq_zero.2 hnm
  have herase1 : (A ++ [g.curr_edge, g.curr_edge]).erase g.curr_edge
      = A ++ [g.curr_edge] := by
    rw [List.erase_append_right _ hnm]
    simp
  have herase2 : (A ++ [g.curr_edge]).erase g.curr_edge = A := by
    rw [List.erase_append_right _ hnm]
    simp
  have hadd := add_edge_undirected_self_eq g u d hdir hua
  rw [hA] at hadd
  obtain ⟨g1, hg1⟩ : ∃ g1, (add_edge g u u d).2 = g1 := ⟨_, rfl⟩
  have hadj1 : g1.adj = g.adj.set u (A ++ [g.curr_edge, g.curr_edge]) := by
    rw [← hg1, hadd]
  have hedges1 : g1.edges
      = insertKey g.edges g.curr_edge ⟨u, u, g.curr_edge, d⟩ := by
    rw [← hg1, hadd]
  have hdir1 : g1.directed = false := by
    rw [← hg1, hadd]
    exact hdir
  have hua1 : u < g1.adj.length := by
    rw [hadj1]
    simpa using hua
  have hget1 : g1.adj[u] = A ++ [g.curr_edge, g.curr_edge] := by
    simp [hadj1, hua]
  have hlook1 : lookupKey g1.edges g.curr_edge
      = some ⟨u, u, g.curr_edge, d⟩ := by
    rw [hedges1]
    exact lookupKey_insertKey_self _ _ _
  have hm1 : g.curr_edge ∈ g1.adj[u] := by
    rw [hget1]
    simp
  have hm2 : g.curr_edge ∈ g1.adj[u].erase g.curr_edge := by
    rw [hget1, herase1]
    simp
  have hrem := remove_edge_undirected_self_eq g1 g.curr_edge
    ⟨u, u, g.curr_edge, d⟩ hdir1 hlook1 hua1 rfl hm1 hm2
  dsimp only at hrem
  refine ⟨by rw [hadd], ?_, ?_, ?_⟩
  · rw [hg1, hadj1, getD_set_self g.adj u _ _ hua, List.count_append, hcnt0]
    simp
  · rw [hg1, hrem]
  · rw [hg1, hrem]
    show ((g1.adj.set u
        ((g1.adj[u].erase g.curr_edge).erase g.curr_edge)).getD u []).count
          g.curr_edge = 0
    rw [getD_set_self g1.adj u _ _ hua1, hget1, herase1, herase2]
    exact hcnt0

/-- Witness for C7 at the one-node undirected graph `gOneU` with a
self-loop on node 0. -/
theorem c7_undirected_self_loop_witness :
    (gOneU.directed = false ∧ (node gOneU 0).isSome = true
      ∧ 0 < gOneU.adj.length ∧ ∀ l ∈ gOneU.adj, gOneU.curr_edge ∉ l)
    ∧ ((add_edge gOneU 0 0 7).1 = .ok gOneU.curr_edge
      ∧ ((add_edge gOneU 0 0 7).2.adj.getD 0 []).count gOneU.curr_edge = 2
      ∧ (remove_edge (add_edge gOneU 0 0 7).2 gOneU.curr_edge).1
          = .ok ⟨0, 0, gOneU.curr_edge, 7⟩
      ∧ ((remove_edge (add_edge gOneU 0 0 7).2 gOneU.curr_edge).2.adj.getD
          0 []).count gOneU.curr_edge = 0) :=
  ⟨⟨by decide, by decide, by decide, by decide⟩,
    c7_undirected_self_loop gOneU 0 7 (by decide) (by decide) (by decide)
      (by decide)⟩

theorem roundtrip_directed (g : ALGraph N E) (u v : NodeInd) (d : E)
    (hdir : g.directed = true)
    (hu : (node g u).isSome = true) (hv : (node g v).isSome = true)
    (hua : u < g.adj.length)
    (hfresh : ∀ l ∈ g.adj, g.curr_edge ∉ l) :
    RoundtripProp g u v d := by
  obtain ⟨A, hA⟩ : ∃ A, g.adj[u] = A := ⟨_, rfl⟩
  have hfA : g.curr_edge ∉ A := hA ▸ hfresh _ (List.getElem_mem hua)
  have hadd := add_edge_directed_eq g u v d hdir hua
  rw [hA] at hadd
  obtain ⟨g1, hg1⟩ : ∃ g1, (add_edge g u v d).2 = g1 := ⟨_, rfl⟩
  have hadj1 : g1.adj = g.adj.set u (A ++ [g.curr_edge]) := by
    rw [← hg1, hadd]
  have hedges1 : g1.edges
      = insertKey g.edges g.curr_edge ⟨u, v, g.curr_edge, d⟩ := by
    rw [← hg1, hadd]
  have hdir1 : g1.directed = true := by
    rw [← hg1, hadd]
    exact hdir
  have hua1 : u < g1.adj.length := by
    rw [hadj1]
    simpa using hua
  have hget1u : g1.adj[u] = A ++ [g.curr_edge] := by
    simp [hadj1, hua]
  have hlook1 : lookupKey g1.edges g.curr_edge
      = some ⟨u, v, g.curr_edge, d⟩ := by
    rw [hedges1]
    exact lookupKey_insertKey_self _ _ _
  have hm1 : g.curr_edge ∈ g1.adj[u] := by
    rw [hget1u]
    simp
  have hrem := remove_edge_directed_eq g1 g.curr_edge
    ⟨u, v, g.curr_edge, d⟩ hdir1 hlook1 hua1 hm1
  dsimp only at hrem
  have hsnd : (remove_edge g1 g.curr_edge).2
      = { g1 with
          edges := eraseKey g1.edges g.curr_edge
          adj := g1.adj.set u (g1.adj[u].erase g.curr_edge) } := by
    rw [hrem]
  have hedges2 : (remove_edge g1 g.curr_edge).2.edges
      = eraseKey g1.edges g.curr_edge := by
    rw [hsnd]
  have hu2 : (node (remove_edge g1 g.curr_edge).2 u).isSome = true := by
    rw [node_remove_edge, ← hg1, node_add_edge]
    exact hu
  have hv2 : (node (remove_edge g1 g.curr_edge).2 v).isSome = true := by
    rw [node_remove_edge, ← hg1, node_add_edge]
    exact hv
  have hdir2 : (remove_edge g1 g.curr_edge).2.directed = true :=
    ((remove_edge_frame g1 g.curr_edge).2.2.2.1).trans hdir1
  have hnokey : ∀ q : (Nat × Edge E) → Bool,
      g.curr_edge ∉
        (((remove_edge g1 g.curr_edge).2.edges).filter q).map Prod.fst := by
    intro q hmemq
    have h := mem_keys_of_mem_keys_filter _ _ _ hmemq
    rw [hedges2] at h
    exact not_mem_keys_eraseKey _ _ h
  have hfrom_u := edges_from_directed_eq (remove_edge g1 g.curr_edge).2 u hdir2 hu2
  have hfrom_v := edges_from_directed_eq (remove_edge g1 g.curr_edge).2 v hdir2 hv2
  have hto_u := edges_to_directed_eq (remove_edge g1 g.curr_edge).2 u hdir2 hu2
  have hto_v := edges_to_directed_eq (remove_edge g1 g.curr_edge).2 v hdir2 hv2
  refine ⟨by rw [hadd], ?_, ?_, ?_, ?_, ?_, ?_, ?_, ?_⟩
  · rw [hg1, hrem]
  · rw [hg1, hrem]
    show g.curr_edge ∉ (eraseKey g1.edges g.curr_edge).map Prod.fst
    exact not_mem_keys_eraseKey _ _
  · rw [hg1]
    intro hok
    rw [hfrom_u, okMem_ok] at hok
    exact hnokey _ hok
  · rw [hg1]
    intro hok
    rw [hto_u, okMem_ok] at hok
    exact hnokey _ hok
  · rw [hg1]
    intro hok
    rw [edges_at_eq _ u _ _ hfrom_u hto_u, okMem_ok, mem_union_iff] at hok
    rcases hok with hok | hok <;> exact hnokey _ hok
  · rw [hg1]
    intro hok
    rw [hfrom_v, okMem_ok] at hok
    exact hnokey _ hok
  · rw [hg1]
    intro hok
    rw [hto_v, okMem_ok] at hok
    exact hnokey _ hok
  · rw [hg1]
    intro hok
    rw [edges_at_eq _ v _ _ hfrom_v hto_v, okMem_ok, mem_union_iff] at hok
    rcases hok with hok | hok <;> exact hnokey _ hok

theorem roundtrip_undirected_ne (g : ALGraph N E) (u v : NodeInd) (d : E)
    (hdir : g.directed = false) (hne : v ≠ u)
    (hu : (node g u).isSome = true) (hv : (node g v).isSome = true)
    (hua : u < g.adj.length) (hva : v < g.adj.length)
    (hfresh : ∀ l ∈ g.adj, g.curr_edge ∉ l) :
    RoundtripProp g u v d := by
  obtain ⟨A, hA⟩ : ∃ A, g.adj[u] = A := ⟨_, rfl⟩
  obtain ⟨B, hB⟩ : ∃ B, g.adj[v] = B := ⟨_, rfl⟩
  have hfA : g.curr_edge ∉ A := hA ▸ hfresh _ (List.getElem_mem hua)
  have hfB : g.curr_edge ∉ B := hB ▸ hfresh _ (List.getElem_mem hva)
  have hadd := add_edge_undirected_ne_eq g u v d hdir hua hva hne
  rw [hA, hB] at hadd
  obtain ⟨g1, hg1⟩ : ∃ g1, (add_edge g u v d).2 = g1 := ⟨_, rfl⟩
  have hadj1 : g1.adj
      = (g.adj.set u (A ++ [g.curr_edge])).set v (B ++ [g.curr_edge]) := by
    rw [← hg1, hadd]
  have hedges1 : g1.edges
      = insertKey g.edges g.curr_edge ⟨u, v, g.curr_edge, d⟩ := by
    rw [← hg1, hadd]
  have hdir1 : g1.directed = false := by
    rw [← hg1, hadd]
    exact hdir
  have hua1 : u < g1.adj.length := by
    rw [hadj1]
    simpa using hua
  have hva1 : v < g1.adj.length := by
    rw [hadj1]
    simpa using hva
  have hget1u : g1.adj[u] = A ++ [g.curr_edge] := by
    simp [hadj1, hua, hne]
  have hget1v : g1.adj[v] = B ++ [g.curr_edge] := by
    simp [hadj1, hva]
  have hlook1 : lookupKey g1.edges g.curr_edge
      = some ⟨u, v, g.curr_edge, d⟩ := by
    rw [hedges1]
    exact lookupKey_insertKey_self _ _ _
  have hm1 : g.curr_edge ∈ g1.adj[u] := by
    rw [hget1u]
    simp
  have hm2 : g.curr_edge ∈ g1.adj[v] := by
    rw [hget1v]
    simp
  have hrem := remove_edge_undirected_ne_eq g1 g.curr_edge
    ⟨u, v, g.curr_edge, d⟩ hdir1 hlook1 hua1 hva1 hne hm1 hm2
  dsimp only at hrem
  have heu : g1.adj[u].erase g.curr_edge = A := by
    rw [hget1u, List.erase_append_right _ hfA]
    simp
  have hev : g1.adj[v].erase g.curr_edge = B := by
    rw [hget1v, List.erase_append_right _ hfB]
    simp
  have hsnd : (remove_edge g1 g.curr_edge).2
      = { g1 with
          edges := eraseKey g1.edges g.curr_edge
          adj := (g1.adj.set u (g1.adj[u].erase g.curr_edge)).set v
              (g1.adj[v].erase g.curr_edge) } := by
    rw [hrem]
  have hedges2 : (remove_edge g1 g.curr_edge).2.edges
      = eraseKey g1.edges g.curr_edge := by
    rw [hsnd]
  have hadj2 : (remove_edge g1 g.curr_edge).2.adj
      = (g1.adj.set u A).set v B := by
    rw [hsnd, heu, hev]
  have hgd_u : (remove_edge g1 g.curr_edge).2.adj.getD u [] = A := by
    rw [hadj2, getD_set_ne _ v u _ _ (Ne.symm hne),
      getD_set_self g1.adj u A [] hua1]
  have hgd_v : (remove_edge g1 g.curr_edge).2.adj.getD v [] = B := by
    rw [hadj2, getD_set_self (g1.adj.set u A) v B [] (by simpa using hva1)]
  have hu2 : (node (remove_edge g1 g.curr_edge).2 u).isSome = true := by
    rw [node_remove_edge, ← hg1, node_add_edge]
    exact hu
  have hv2 : (node (remove_edge g1 g.curr_edge).2 v).isSome = true := by
    rw [node_remove_edge, ← hg1, node_add_edge]
    exact hv
  have hdir2 : (remove_edge g1 g.curr_edge).2.directed = false :=
    ((remove_edge_frame g1 g.curr_edge).2.2.2.1).trans hdir1
  have hfrom_u := edges_from_undirected_eq (remove_edge g1 g.curr_edge).2 u hdir2 hu2
  have hfrom_v := edges_from_undirected_eq (remove_edge g1 g.curr_edge).2 v hdir2 hv2
  have hto_u := edges_to_undirected_eq (remove_edge g1 g.curr_edge).2 u hdir2 hu2
  have hto_v := edges_to_undirected_eq (remove_edge g1 g.curr_edge).2 v hdir2 hv2
  refine ⟨by rw [hadd], ?_, ?_, ?_, ?_, ?_, ?_, ?_, ?_⟩
  · rw [hg1, hrem]
  · rw [hg1, hrem]
    show g.curr_edge ∉ (eraseKey g1.edges g.curr_edge).map Prod.fst
    exact not_mem_keys_eraseKey _ _
  · rw [hg1]
    intro hok
    rw [hfrom_u, okMem_ok, hgd_u] at hok
    exact hfA hok
  · rw [hg1]
    intro hok
    rw [hto_u, okMem_ok, hgd_u] at hok
    exact hfA hok
  · rw [hg1]
    intro hok
    rw [edges_at_eq _ u _ _ hfrom_u hto_u, okMem_ok, mem_union_iff, hgd_u] at hok
    rcases hok with hok | hok <;> exact hfA hok
  · rw [hg1]
    intro hok
    rw [hfrom_v, okMem_ok, hgd_v] at hok
    exact hfB hok
  · rw [hg1]
    intro hok
    rw [hto_v, okMem_ok, hgd_v] at hok
    exact hfB hok
  · rw [hg1]
    intro hok
    rw [edges_at_eq _ v _ _ hfrom_v hto_v, okMem_ok, mem_union_iff, hgd_v] at hok
    rcases hok with hok | hok <;> exact hfB hok

theorem roundtrip_undirected_self (g : ALGraph N E) (u : NodeInd) (d : E)
    (hdir : g.directed = false)
    (hu : (node g u).isSome = true) (hua : u < g.adj.length)
    (hfresh : ∀ l ∈ g.adj, g.curr_edge ∉ l) :
    RoundtripProp g u u d := by
  obtain ⟨A, hA⟩ : ∃ A, g.adj[u] = A := ⟨_, rfl⟩
  have hfA : g.curr_edge ∉ A := hA ▸ hfresh _ (List.getElem_mem hua)
  have herase1 : (A ++ [g.curr_edge, g.curr_edge]).erase g.curr_edge
      = A ++ [g.curr_edge] := by
    rw [List.erase_append_right _ hfA]
    simp
  have herase2 : (A ++ [g.curr_edge]).erase g.curr_edge = A := by
    rw [List.erase_append_right _ hfA]
    simp
  have hadd := add_edge_undirected_self_eq g u d hdir hua
  rw [hA] at hadd
  obtain ⟨g1, hg1⟩ : ∃ g1, (add_edge g u u d).2 = g1 := ⟨_, rfl⟩
  have hadj1 : g1.adj = g.adj.set u (A ++ [g.curr_edge, g.curr_edge]) := by
    rw [← hg1, hadd]
  have hedges1 : g1.edges
      = insertKey g.edges g.curr_edge ⟨u, u, g.curr_edge, d⟩ := by
    rw [← hg1, hadd]
  have hdir1 : g1.directed = false := by
    rw [← hg1, hadd]
    exact hdir
  have hua1 : u < g1.adj.length := by
    rw [hadj1]
    simpa using hua
  have hget1 : g1.adj[u] = A ++ [g.curr_edge, g.curr_edge] := by
    simp [hadj1, hua]
  have hlook1 : lookupKey g1.edges g.curr_edge
      = some ⟨u, u, g.curr_edge, d⟩ := by
    rw [hedges1]
    exact lookupKey_insertKey_self _ _ _
  have hm1 : g.curr_edge ∈ g1.adj[u] := by
    rw [hget1]
    simp
  have hm2 : g.curr_edge ∈ g1.adj[u].erase g.curr_edge := by
    rw [hget1, herase1]
    simp
  have hrem := remove_edge_undirected_self_eq g1 g.curr_edge
    ⟨u, u, g.curr_edge, d⟩ hdir1 hlook1 hua1 rfl hm1 hm2
  dsimp only at hrem
  have hsnd : (remove_edge g1 g.curr_edge).2
      = { g1 with
          edges := eraseKey g1.edges g.curr_edge
          adj := g1.adj.set u
              ((g1.adj[u].erase g.curr_edge).erase g.curr_edge) } := by
    rw [hrem]
  have hedges2 : (remove_edge g1 g.curr_edge).2.edges
      = eraseKey g1.edges g.curr_edge := by
    rw [hsnd]
  have hadj2 : (remove_edge g1 g.curr_edge).2.adj = g1.adj.set u A := by
    rw [hsnd, hget1, herase1, herase2]
  have hgd_u : (remove_edge g1 g.curr_edge).2.adj.getD u [] = A := by
    rw [hadj2, getD_set_self g1.adj u A [] hua1]
  have hu2 : (node (remove_edge g1 g.curr_edge).2 u).isSome = true := by
    rw [node_remove_edge, ← hg1, node_add_edge]
    exact hu
  have hdir2 : (remove_edge g1 g.curr_edge).2.directed = false :=
    ((remove_edge_frame g1 g.curr_edge).2.2.2.1).trans hdir1
  have hfrom_u := edges_from_undirected_eq (remove_edge g1 g.curr_edge).2 u hdir2 hu2
  have hto_u := edges_to_undirected_eq (remove_edge g1 g.curr_edge).2 u hdir2 hu2
  refine ⟨by rw [hadd], ?_, ?_, ?_, ?_, ?_, ?_, ?_, ?_⟩
  · rw [hg1, hrem]
  · rw [hg1, hrem]
    show g.curr_edge ∉ (eraseKey g1.edges g.curr_edge).map Prod.fst
    exact not_mem_keys_eraseKey _ _
  all_goals
    rw [hg1]
    intro hok
  · rw [hfrom_u, okMem_ok, hgd_u] at hok
    exact hfA hok
  · rw [hto_u, okMem_ok, hgd_u] at hok
    exact hfA hok
  · rw [edges_at_eq _ u _ _ hfrom_u hto_u, okMem_ok, mem_union_iff, hgd_u] at hok
    rcases hok with hok | hok <;> exact hfA hok
  · rw [hfrom_u, okMem_ok, hgd_u] at hok
    exact hfA hok
  · rw [hto_u, okMem_ok, hgd_u] at hok
    exact hfA hok
  · rw [edges_at_eq _ u _ _ hfrom_u hto_u, okMem_ok, mem_union_iff, hgd_u] at hok
    rcases hok with hok | hok <;> exact hfA hok

theorem remove_edge_ok_lookup (g : ALGraph N E) (e : EdgeInd) (ed : Edge E)
    (h : (remove_edge g e).1 = .ok ed) : lookupKey g.edges e = some ed := by
  cases hl : lookupKey g.edges e with
  | none => simp [remove_edge, hl] at h
  | some ed2 =>
    simp only [remove_edge, hl] at h
    repeat' split at h
    all_goals simp_all

theorem remove_edge_edges_sub (g : ALGraph N E) (e : EdgeInd)
    (p : EdgeInd × Edge E) (hp : p ∈ (remove_edge g e).2.edges) :
    p ∈ g.edges := by
  have hcases : (remove_edge g e).2.edges = g.edges
      ∨ (remove_edge g e).2.edges = eraseKey g.edges e := by
    simp only [remove_edge]
    repeat' split
    all_goals first
      | exact Or.inl rfl
      | exact Or.inr rfl
  rcases hcases with hc | hc
  · rwa [hc] at hp
  · rw [hc] at hp
    exact ((mem_eraseKey _ _ _).1 hp).1

/-- C4: the removal round-trip.  For live nodes `u`, `v` — with the bounds
and freshness hypotheses that make the source's unchecked adjacency
indexing succeed and that hold in any state whose adjacency entries were
issued by `curr_edge` — `remove_edge` applied to the handle returned by
`add_edge u v d` returns the record `{start := u, end := v, data := d}`,
and afterwards that handle is absent from `edges()` and from every
adjacency query (`edges_from`, `edges_to`, `edges_at`) for `u` and for
`v`, whether the graph is directed or undirected (self-loops included). -/
theorem c4_removal_roundtrip (g : ALGraph N E) (u v : NodeInd) (d : E)
    (hu : (node g u).isSome = true) (hv : (node g v).isSome = true)
    (hua : u < g.adj.length) (hva : v < g.adj.length)
    (hfresh : ∀ l ∈ g.adj, g.curr_edge ∉ l) :
    RoundtripProp g u v d := by
  cases hd : g.directed with
  | false =>
    by_cases hvu : v = u
    · subst hvu
      exact roundtrip_undirected_self g v d hd hv hva hfresh
    · exact roundtrip_undirected_ne g u v d hd hvu hu hv hua hva hfresh
  | true => exact roundtrip_directed g u v d hd hu hv hua hfresh

/-- Witness for C4 at `gTwo` with `u = 0`, `v = 1`, payload 5. -/
theorem c4_removal_roundtrip_witness :
    ((node gTwo 0).isSome = true ∧ (node gTwo 1).isSome = true
      ∧ 0 < gTwo.adj.length ∧ 1 < gTwo.adj.length
      ∧ ∀ l ∈ gTwo.adj, gTwo.curr_edge ∉ l)
    ∧ RoundtripProp gTwo 0 1 5 :=
  ⟨⟨by decide, by decide, by decide, by decide, by decide⟩,
    c4_removal_roundtrip gTwo 0 1 5 (by decide) (by decide) (by decide)
      (by decide) (by decide)⟩

theorem add_edge_ok_inv (g : ALGraph N E) (u v : NodeInd) (d : E)
    (i : EdgeInd) (h : (add_edge g u v d).1 = .ok i) :
    i = g.curr_edge ∧ u < g.adj.length
      ∧ (g.directed = false → v < g.adj.length) := by
  simp only [add_edge] at h
  split_ifs at h with h1 h2 h3 <;> simp_all [is_directed]

theorem key_lt_of_isSome (m : List (Nat × α)) (c : Nat)
    (hb : ∀ p ∈ m, p.1 < c) (i : Nat)
    (h : (lookupKey m i).isSome = true) : i < c := by
  rcases List.mem_map.1 ((lookupKey_isSome_iff _ _).1 h) with ⟨p, hp, hpi⟩
  exact hpi ▸ hb p hp

theorem invariant_parts_add (g g' : ALGraph N E) (u v : NodeInd) (d : E)
    (hg : Invariant g)
    (hed : g'.edges = insertKey g.edges g.curr_edge ⟨u, v, g.curr_edge, d⟩)
    (hlen : g'.adj.length = g.adj.length)
    (hce : g'.curr_edge = g.curr_edge + 1)
    (hdir : g'.directed = g.directed)
    (hub : u < g.adj.length) (hvb : g.directed = false → v < g.adj.length)
    (hcnt : ∀ x j, j < g.adj.length →
        ((g'.adj.getD j []).count x
          = (g.adj.getD j []).count x
            + (if x = g.curr_edge
               then adjOcc g.directed ⟨u, v, g.curr_edge, d⟩ j else 0)))
    (hmem : ∀ l ∈ g'.adj, ∀ i ∈ l,
        i = g.curr_edge ∨ ∃ l0 ∈ g.adj, i ∈ l0) :
    Invariant g' := by
  obtain ⟨hnd, hbd, hix, hsb, hak, hc⟩ := hg
  have hnotold : ∀ j, j < g.adj.length →
      (g.adj.getD j []).count g.curr_edge = 0 := by
    intro j hj
    rw [List.count_eq_zero]
    intro hmem0
    have hin := hak _ (mem_of_mem_getD g.adj j [] _ hj rfl) _ hmem0
    exact absurd (key_lt_of_isSome _ _ hbd _ hin) (lt_irrefl _)
  refine ⟨?_, ?_, ?_, ?_, ?_, ?_⟩
  · rw [hed]
    exact nodup_keys_insertKey _ _ _ hnd
  · intro p hp
    rw [hed] at hp
    rw [hce]
    rcases (mem_insertKey _ _ _ _).1 hp with hpe | ⟨hpm, _⟩
    · subst hpe
      exact Nat.lt_succ_self _
    · exact Nat.lt_succ_of_lt (hbd p hpm)
  · intro p hp
    rw [hed] at hp
    rcases (mem_insertKey _ _ _ _).1 hp with hpe | ⟨hpm, _⟩
    · subst hpe
      rfl
    · exact hix p hpm
  · intro p hp
    rw [hed] at hp
    rw [hlen, hdir]
    rcases (mem_insertKey _ _ _ _).1 hp with hpe | ⟨hpm, _⟩
    · subst hpe
      exact ⟨hub, hvb⟩
    · exact hsb p hpm
  · intro l hl i hi
    rw [hed]
    rcases hmem l hl i hi with rfl | ⟨l0, hl0, hil0⟩
    · simp
    · have hold := hak l0 hl0 i hil0
      have hne : i ≠ g.curr_edge := by
        intro hh
        subst hh
        exact absurd (key_lt_of_isSome _ _ hbd _ hold) (lt_irrefl _)
      rw [lookupKey_insertKey_ne _ _ _ _ hne]
      exact hold
  · intro p hp j hj
    rw [hlen] at hj
    rw [hdir, hcnt _ _ hj]
    rw [hed] at hp
    rcases (mem_insertKey _ _ _ _).1 hp with hpe | ⟨hpm, hpne⟩
    · subst hpe
      rw [hnotold j hj]
      simp
    · rw [if_neg hpne, Nat.add_zero]
      exact hc p hpm j hj

theorem invariant_parts_remove (g g' : ALGraph N E) (e : EdgeInd)
    (ed : Edge E) (hg : Invariant g)
    (hlook : lookupKey g.edges e = some ed)
    (hed : g'.edges = eraseKey g.edges e)
    (hlen : g'.adj.length = g.adj.length)
    (hce : g'.curr_edge = g.curr_edge)
    (hdir : g'.directed = g.directed)
    (hcnt : ∀ x j, j < g.adj.length →
        ((g'.adj.getD j []).count x
          = (g.adj.getD j []).count x
            - (if x = e then adjOcc g.directed ed j else 0)))
    (hsub : ∀ j, j < g.adj.length →
        ∀ i ∈ g'.adj.getD j [], i ∈ g.adj.getD j []) :
    Invariant g' := by
  obtain ⟨hnd, hbd, hix, hsb, hak, hc⟩ := hg
  have hpmem : (e, ed) ∈ g.edges := lookupKey_mem _ _ _ hlook
  have hzero : ∀ j, j < g.adj.length →
      (g'.adj.getD j []).count e = 0 := by
    intro j hj
    rw [hcnt e j hj, if_pos rfl, hc (e, ed) hpmem j hj]
    exact Nat.sub_self _
  refine ⟨?_, ?_, ?_, ?_, ?_, ?_⟩
  · rw [hed]
    exact nodup_keys_eraseKey _ _ hnd
  · intro p hp
    rw [hce]
    rw [hed] at hp
    exact hbd p ((mem_eraseKey _ _ _).1 hp).1
  · intro p hp
    rw [hed] at hp
    exact hix p ((mem_eraseKey _ _ _).1 hp).1
  · intro p hp
    rw [hed] at hp
    have hpm := ((mem_eraseKey _ _ _).1 hp).1
    refine ⟨?_, ?_⟩
    · rw [hlen]
      exact (hsb p hpm).1
    · intro h
      rw [hlen]
      refine (hsb p hpm).2 ?_
      rw [← hdir]
      exact h
  · intro l hl i hi
    rcases List.mem_iff_getElem.1 hl with ⟨j, hjl, hgl⟩
    have hj : j < g.adj.length := hlen ▸ hjl
    have hlgd : g'.adj.getD j [] = l := by
      rw [getD_eq_get _ _ _ hjl, hgl]
    have hiold : i ∈ g.adj.getD j [] := hsub j hj i (by rw [hlgd]; exact hi)
    have hisome := hak _ (mem_of_mem_getD g.adj j [] _ hj rfl) i hiold
    have hine : i ≠ e := by
      intro hh
      subst hh
      have h0 := hzero j hj
      rw [hlgd] at h0
      exact absurd hi (List.count_eq_zero.1 h0)
    rw [hed, lookupKey_eraseKey_ne _ _ _ hine]
    exact hisome
  · intro p hp j hj
    rw [hlen] at hj
    rw [hdir, hcnt _ _ hj]
    rw [hed] at hp
    obtain ⟨hpm, hpne⟩ := (mem_eraseKey _ _ _).1 hp
    rw [if_neg hpne, Nat.sub_zero]
    exact hc p hpm j hj

theorem mem_of_count_pos (l : List Nat) (x : Nat) (h : 0 < l.count x) :
    x ∈ l := by
  by_contra hno
  rw [List.count_eq_zero.2 hno] at h
  exact absurd h (lt_irrefl 0)

theorem invariant_add_edge (g : ALGraph N E) (u v : NodeInd) (d : E)
    (i : EdgeInd) (hg : Invariant g) (hok : (add_edge g u v d).1 = .ok i) :
    Invariant (add_edge g u v d).2 := by
  obtain ⟨hi, hub, hvb⟩ := add_edge_ok_inv g u v d i hok
  have hfr := add_edge_frame g u v d
  have hedg := add_edge_edges_eq g u v d
  cases hd : g.directed with
  | true =>
    have hadd := add_edge_directed_eq g u v d hd hub
    have hadjeq : (add_edge g u v d).2.adj
        = g.adj.set u (g.adj[u] ++ [g.curr_edge]) := by
      rw [hadd]
    refine invariant_parts_add g _ u v d hg hedg hfr.2.2.2 (by rw [hadd])
      hfr.2.2.1 hub hvb ?_ ?_
    · intro x j hj
      rw [hadjeq, count_getD_set _ _ _ _ _ hub]
      by_cases hju : j = u
      · rw [if_pos hju, List.count_append, hju, ← getD_eq_get g.adj u [] hub]
        by_cases hxe : x = g.curr_edge <;> simp [hxe, adjOcc, hd]
      · rw [if_neg hju]
        have hocc : adjOcc g.directed ⟨u, v, g.curr_edge, d⟩ j = 0 := by
          simp [adjOcc, hd, hju]
        rw [hocc]
        simp
    · intro l hl i0 hi0
      rw [hadjeq] at hl
      rcases List.mem_or_eq_of_mem_set hl with hl0 | rfl
      · exact Or.inr ⟨l, hl0, hi0⟩
      · rcases List.mem_append.1 hi0 with h0 | h0
        · exact Or.inr ⟨g.adj[u], List.getElem_mem hub, h0⟩
        · simp at h0
          exact Or.inl h0
  | false =>
    have hvb2 : v < g.adj.length := hvb hd
    by_cases hvu : v = u
    · subst hvu
      have hadd := add_edge_undirected_self_eq g v d hd hub
      have hadjeq : (add_edge g v v d).2.adj
          = g.adj.set v (g.adj[v] ++ [g.curr_edge, g.curr_edge]) := by
        rw [hadd]
      refine invariant_parts_add g _ v v d hg hedg hfr.2.2.2 (by rw [hadd])
        hfr.2.2.1 hub (fun _ => hub) ?_ ?_
      · intro x j hj
        rw [hadjeq, count_getD_set _ _ _ _ _ hub]
        by_cases hju : j = v
        · rw [if_pos hju, List.count_append, hju,
            ← getD_eq_get g.adj v [] hub]
          by_cases hxe : x = g.curr_edge <;> simp [hxe, adjOcc, hd]
        · rw [if_neg hju]
          have hocc : adjOcc g.directed ⟨v, v, g.curr_edge, d⟩ j = 0 := by
            simp [adjOcc, hd, hju]
          rw [hocc]
          simp
      · intro l hl i0 hi0
        rw [hadjeq] at hl
        rcases List.mem_or_eq_of_mem_set hl with hl0 | rfl
        · exact Or.inr ⟨l, hl0, hi0⟩
        · rcases List.mem_append.1 hi0 with h0 | h0
          · exact Or.inr ⟨g.adj[v], List.getElem_mem hub, h0⟩
          · simp at h0
            exact Or.inl h0
    · have hadd := add_edge_undirected_ne_eq g u v d hd hub hvb2 hvu
      have huv : u ≠ v := fun h => hvu h.symm
      have hadjeq : (add_edge g u v d).2.adj
          = (g.adj.set u (g.adj[u] ++ [g.curr_edge])).set v
              (g.adj[v] ++ [g.curr_edge]) := by
        rw [hadd]
      have hvlen : v < (g.adj.set u (g.adj[u] ++ [g.curr_edge])).length := by
        simpa using hvb2
      refine invariant_parts_add g _ u v d hg hedg hfr.2.2.2 (by rw [hadd])
        hfr.2.2.1 hub hvb ?_ ?_
      · intro x j hj
        rw [hadjeq, count_getD_set _ _ _ _ _ hvlen,
          count_getD_set _ _ _ _ _ hub]
        by_cases hjv : j = v
        · have hju : ¬(j = u) := by
            rw [hjv]
            exact hvu
          rw [if_pos hjv, List.count_append, hjv,
            ← getD_eq_get g.adj v [] hvb2]
          by_cases hxe : x = g.curr_edge <;> simp [hxe, adjOcc, hd, hvu]
        · rw [if_neg hjv]
          by_cases hju : j = u
          · rw [if_pos hju, List.count_append, hju,
              ← getD_eq_get g.adj u [] hub]
            by_cases hxe : x = g.curr_edge <;> simp [hxe, adjOcc, hd, huv]
          · rw [if_neg hju]
            have hocc : adjOcc g.directed ⟨u, v, g.curr_edge, d⟩ j = 0 := by
              simp [adjOcc, hd, hju, hjv]
            rw [hocc]
            simp
      · intro l hl i0 hi0
        rw [hadjeq] at hl
        rcases List.mem_or_eq_of_mem_set hl with hl0 | rfl
        · rcases List.mem_or_eq_of_mem_set hl0 with hl1 | rfl
          · exact Or.inr ⟨l, hl1, hi0⟩
          · rcases List.mem_append.1 hi0 with h0 | h0
            · exact Or.inr ⟨g.adj[u], List.getElem_mem hub, h0⟩
            · simp at h0
              exact Or.inl h0
        · rcases List.mem_append.1 hi0 with h0 | h0
          · exact Or.inr ⟨g.adj[v], List.getElem_mem hvb2, h0⟩
          · simp at h0
            exact Or.inl h0

theorem invariant_remove_edge (g : ALGraph N E) (e : EdgeInd) (ed : Edge E)
    (hg : Invariant g) (hok : (remove_edge g e).1 = .ok ed) :
    Invariant (remove_edge g e).2 := by
  have hlook := remove_edge_ok_lookup g e ed hok
  have hpm : (e, ed) ∈ g.edges := lookupKey_mem _ _ _ hlook
  have hide : ed.index = e := hg.2.2.1 _ hpm
  have hsbe := hg.2.2.2.1 _ hpm
  have hcee := hg.2.2.2.2.2 (e, ed) hpm
  have hfr := remove_edge_frame g e
  have hs1 : ed.start < g.adj.length := hsbe.1
  cases hd : g.directed with
  | true =>
    have hcnt_start : (g.adj.getD ed.start []).count e = 1 := by
      rw [hcee ed.start hs1]
      simp [adjOcc, hd]
    have hmem1 : ed.index ∈ g.adj[ed.start] := by
      rw [hide, ← getD_eq_get g.adj ed.start [] hs1]
      exact mem_of_count_pos _ _ (by rw [hcnt_start]; exact Nat.one_pos)
    have hrem := remove_edge_directed_eq g e ed hd hlook hs1 hmem1
    have hadjeq : (remove_edge g e).2.adj
        = g.adj.set ed.start (g.adj[ed.start].erase ed.index) := by
      rw [hrem]
    refine invariant_parts_remove g _ e ed hg hlook (by rw [hrem])
      hfr.2.2.2.2 hfr.2.2.1 hfr.2.2.2.1 ?_ ?_
    · intro x j hj
      rw [hadjeq, count_getD_set _ _ _ _ _ hs1]
      by_cases hjs : j = ed.start
      · rw [if_pos hjs, hide, hjs, ← getD_eq_get g.adj ed.start [] hs1]
        by_cases hxe : x = e
        · rw [hxe, List.count_erase_self, if_pos rfl]
          have hocc : adjOcc g.directed ed ed.start = 1 := by
            simp [adjOcc, hd]
          rw [hocc]
        · rw [List.count_erase_of_ne hxe, if_neg hxe, Nat.sub_zero]
      · rw [if_neg hjs]
        have hocc : adjOcc g.directed ed j = 0 := by
          simp [adjOcc, hd, hjs]
        rw [hocc]
        simp
    · intro j hj i0 hi0
      rw [hadjeq] at hi0
      by_cases hjs : j = ed.start
      · rw [hjs, getD_set_self _ _ _ _ hs1] at hi0
        rw [hjs, getD_eq_get g.adj ed.start [] hs1]
        exact List.mem_of_mem_erase hi0
      · rw [getD_set_ne _ _ _ _ _ hjs] at hi0
        exact hi0
  | false =>
    have hs2 : ed.endN < g.adj.length := hsbe.2 hd
    by_cases hself : ed.endN = ed.start
    · have hcnt_start : (g.adj.getD ed.start []).count e = 2 := by
        rw [hcee ed.start hs1]
        simp [adjOcc, hd, hself]
      have hmem1 : ed.index ∈ g.adj[ed.start] := by
        rw [hide, ← getD_eq_get g.adj ed.start [] hs1]
        exact mem_of_count_pos _ _ (by rw [hcnt_start]; exact Nat.zero_lt_two)
      have hmem2 : ed.index ∈ g.adj[ed.start].erase ed.index := by
        rw [hide, ← getD_eq_get g.adj ed.start [] hs1]
        refine mem_of_count_pos _ _ ?_
        rw [List.count_erase_self, hcnt_start]
        exact Nat.one_pos
      have hrem := remove_edge_undirected_self_eq g e ed hd hlook hs1 hself
        hmem1 hmem2
      have hadjeq : (remove_edge g e).2.adj
          = g.adj.set ed.start
              ((g.adj[ed.start].erase ed.index).erase ed.index) := by
        rw [hrem]
      refine invariant_parts_remove g _ e ed hg hlook (by rw [hrem])
        hfr.2.2.2.2 hfr.2.2.1 hfr.2.2.2.1 ?_ ?_
      · intro x j hj
        rw [hadjeq, count_getD_set _ _ _ _ _ hs1]
        by_cases hjs : j = ed.start
        · rw [if_pos hjs, hide, hjs, ← getD_eq_get g.adj ed.start [] hs1]
          by_cases hxe : x = e
          · rw [hxe, List.count_erase_self, List.count_erase_self]
            have hocc : adjOcc g.directed ed ed.start = 2 := by
              simp [adjOcc, hd, hself]
            rw [hocc, if_pos rfl]
            omega
          · rw [List.count_erase_of_ne hxe, List.count_erase_of_ne hxe,
              if_neg hxe, Nat.sub_zero]
        · rw [if_neg hjs]
          have hocc : adjOcc g.directed ed j = 0 := by
            simp [adjOcc, hd, hjs, hself]
          rw [hocc]
          simp
      · intro j hj i0 hi0
        rw [hadjeq] at hi0
        by_cases hjs : j = ed.start
        · rw [hjs, getD_set_self _ _ _ _ hs1] at hi0
          rw [hjs, getD_eq_get g.adj ed.start [] hs1]
          exact List.mem_of_mem_erase (List.mem_of_mem_erase hi0)
        · rw [getD_set_ne _ _ _ _ _ hjs] at hi0
          exact hi0
    · have hnes : ed.start ≠ ed.endN := fun h => hself h.symm
      have hcnt_start : (g.adj.getD ed.start []).count e = 1 := by
        rw [hcee ed.start hs1]
        simp [adjOcc, hd, hnes]
      have hcnt_end : (g.adj.getD ed.endN []).count e = 1 := by
        rw [hcee ed.endN hs2]
        simp [adjOcc, hd, hself]
      have hmem1 : ed.index ∈ g.adj[ed.start] := by
        rw [hide, ← getD_eq_get g.adj ed.start [] hs1]
        exact mem_of_count_pos _ _ (by rw [hcnt_start]; exact Nat.one_pos)
      have hmem2 : ed.index ∈ g.adj[ed.endN] := by
        rw [hide, ← getD_eq_get g.adj ed.endN [] hs2]
        exact mem_of_count_pos _ _ (by rw [hcnt_end]; exact Nat.one_pos)
      have hrem := remove_edge_undirected_ne_eq g e ed hd hlook hs1 hs2
        hself hmem1 hmem2
      have hadjeq : (remove_edge g e).2.adj
          = (g.adj.set ed.start (g.adj[ed.start].erase ed.index)).set
              ed.endN (g.adj[ed.endN].erase ed.index) := by
        rw [hrem]
      have helen : ed.endN
          < (g.adj.set ed.start (g.adj[ed.start].erase ed.index)).length := by
        simpa using hs2
      refine invariant_parts_remove g _ e ed hg hlook (by rw [hrem])
        hfr.2.2.2.2 hfr.2.2.1 hfr.2.2.2.1 ?_ ?_
      · intro x j hj
        rw [hadjeq, count_getD_set _ _ _ _ _ helen,
          count_getD_set _ _ _ _ _ hs1]
        by_cases hje : j = ed.endN
        · have hjs : ¬(j = ed.start) := by
            rw [hje]
            exact hself
          rw [if_pos hje, hide, hje, ← getD_eq_get g.adj ed.endN [] hs2]
          by_cases hxe : x = e
          · rw [hxe, List.count_erase_self, if_pos rfl]
            have hocc : adjOcc g.directed ed ed.endN = 1 := by
              simp [adjOcc, hd, hself]
            rw [hocc]
          · rw [List.count_erase_of_ne hxe, if_neg hxe, Nat.sub_zero]
        · rw [if_neg hje]
          by_cases hjs : j = ed.start
          · rw [if_pos hjs, hide, hjs, ← getD_eq_get g.adj ed.start [] hs1]
            by_cases hxe : x = e
            · rw [hxe, List.count_erase_self, if_pos rfl]
              have hocc : adjOcc g.directed ed ed.start = 1 := by
                simp [adjOcc, hd, hnes]
              rw [hocc]
            · rw [List.count_erase_of_ne hxe, if_neg hxe, Nat.sub_zero]
          · rw [if_neg hjs]
            have hocc : adjOcc g.directed ed j = 0 := by
              simp [adjOcc, hd, hjs, hje]
            rw [hocc]
            simp
      · intro j hj i0 hi0
        rw [hadjeq] at hi0
        by_cases hje : j = ed.endN
        · have hjs : ¬(j = ed.start) := by
            rw [hje]
            exact hself
          rw [hje, getD_set_self _ _ _ _ helen] at hi0
          rw [hje, getD_eq_get g.adj ed.endN [] hs2]
          exact List.mem_of_mem_erase hi0
        · rw [getD_set_ne _ _ _ _ _ hje] at hi0
          by_cases hjs : j = ed.start
          · rw [hjs, getD_set_self _ _ _ _ hs1] at hi0
            rw [hjs, getD_eq_get g.adj ed.start [] hs1]
            exact List.mem_of_mem_erase hi0
          · rw [getD_set_ne _ _ _ _ _ hjs] at hi0
            exact hi0

theorem consistency_of_invariant (g : ALGraph N E) (hg : Invariant g) :
    ConsistencyProp g := by
  obtain ⟨hnd, hbd, hix, hsb, hak, hc⟩ := hg
  refine ⟨?_, ?_, ?_⟩
  · intro l hl i hi
    exact (lookupKey_isSome_iff _ _).1 (hak l hl i hi)
  · intro hd p hp
    have hs1 := (hsb p hp).1
    refine ⟨?_, ?_⟩
    · refine mem_of_count_pos _ _ ?_
      rw [hc p hp p.2.start hs1]
      simp [adjOcc, hd]
    · intro j hj hjs
      have hocc : adjOcc g.directed p.2 j = 0 := by
        simp [adjOcc, hd, hjs]
      intro hmem0
      have h0 : (g.adj.getD j []).count p.1 = 0 := by
        rw [hc p hp j hj, hocc]
      exact absurd hmem0 (List.count_eq_zero.1 h0)
  · intro hd p hp
    have hs1 := (hsb p hp).1
    have hs2 := (hsb p hp).2 hd
    constructor
    · refine mem_of_count_pos _ _ ?_
      rw [hc p hp p.2.start hs1]
      by_cases hse : p.2.start = p.2.endN <;> simp [adjOcc, hd, hse]
    · refine mem_of_count_pos _ _ ?_
      rw [hc p hp p.2.endN hs2]
      by_cases hse : p.2.endN = p.2.start <;> simp [adjOcc, hd, hse]

/-- C8: the adjacency-list consistency invariant (spec §3): every handle in
any adjacency list is an edge-table key, a directed edge appears exactly in
the adjacency list of its start node and nowhere else, and an undirected
edge in the lists of both endpoints.  The invariant (strengthened with key
freshness and the per-list occurrence counts that make it inductive)
implies the consistency property and is preserved by `add_node` and by
every `add_edge` and `remove_edge` that returns — operations that panic do
not return, and C3 records that their partial states can indeed violate
consistency. -/
theorem c8_adjacency_consistency (g : ALGraph N E) (hg : Invariant g) :
    ConsistencyProp g
    ∧ (∀ dN : N, Invariant (add_node g dN).2)
    ∧ (∀ u v dE i, (add_edge g u v dE).1 = .ok i →
        Invariant (add_edge g u v dE).2)
    ∧ (∀ e ed, (remove_edge g e).1 = .ok ed →
        Invariant (remove_edge g e).2) :=
  ⟨consistency_of_invariant g hg,
    fun _ => hg,
    fun u v dE i hok => invariant_add_edge g u v dE i hg hok,
    fun e ed hok => invariant_remove_edge g e ed hg hok⟩

/-- Witness for C8 at the scenario graph, a directed graph with one edge. -/
theorem c8_adjacency_consistency_witness :
    Invariant gScenario
    ∧ (ConsistencyProp gScenario
      ∧ (∀ dN : Nat, Invariant (add_node gScenario dN).2)
      ∧ (∀ u v dE i, (add_edge gScenario u v dE).1 = .ok i →
          Invariant (add_edge gScenario u v dE).2)
      ∧ (∀ e ed, (remove_edge gScenario e).1 = .ok ed →
          Invariant (remove_edge gScenario e).2)) :=
  ⟨by unfold Invariant; decide,
    c8_adjacency_consistency gScenario (by unfold Invariant; decide)⟩

/-- C10: stored-index self-consistency.  If every edge-table entry carries
its key as `index` (which holds for the empty graph), then `edge e` always
returns a record with `index = e`, the record returned by `remove_edge e`
has `index = e`, and the property is preserved by `add_node`, by `add_edge`
(which builds the record with `index := curr_edge` and files it under that
key, on every path, panics included), and by `remove_edge`. -/
theorem c10_stored_index (g : ALGraph N E) (hg : StoredIndexInv g) :
    (∀ e ed, edge g e = some ed → ed.index = e)
    ∧ (∀ e ed, (remove_edge g e).1 = .ok ed → ed.index = e)
    ∧ (∀ dN : N, StoredIndexInv (add_node g dN).2)
    ∧ (∀ u v dE, StoredIndexInv (add_edge g u v dE).2)
    ∧ (∀ e, StoredIndexInv (remove_edge g e).2) := by
  refine ⟨?_, ?_, ?_, ?_, ?_⟩
  · intro e ed h
    exact hg _ (lookupKey_mem _ _ _ h)
  · intro e ed h
    exact hg _ (lookupKey_mem _ _ _ (remove_edge_ok_lookup g e ed h))
  · intro dN p hp
    exact hg p hp
  · intro u v dE p hp
    rw [add_edge_edges_eq] at hp
    rcases (mem_insertKey _ _ _ _).1 hp with hpe | ⟨hpm, _⟩
    · subst hpe
      rfl
    · exact hg p hpm
  · intro e p hp
    exact hg p (remove_edge_edges_sub g e p hp)

/-- Witness for C10 at the scenario graph, whose edge table is nonempty. -/
theorem c10_stored_index_witness :
    StoredIndexInv gScenario
    ∧ ((∀ e ed, edge gScenario e = some ed → ed.index = e)
      ∧ (∀ e ed, (remove_edge gScenario e).1 = .ok ed → ed.index = e)
      ∧ (∀ dN : Nat, StoredIndexInv (add_node gScenario dN).2)
      ∧ (∀ u v dE, StoredIndexInv (add_edge gScenario u v dE).2)
      ∧ (∀ e, StoredIndexInv (remove_edge gScenario e).2)) :=
  ⟨by unfold StoredIndexInv; decide,
    c10_stored_index gScenario (by unfold StoredIndexInv; decide)⟩

end GraphV4
